import Mathlib

/-!
Verification of the budget-extraction pipeline of the `cmat` repository
(`backend.py`).  The Python functions are shallowly embedded as executable
Lean definitions:

* Python `float` values are modelled as exact rationals (`ℚ`); every numeric
  literal the claims mention is exactly representable, so no rounding is
  modelled.
* Python strings are modelled as `List Char` (scanning is per character,
  matching Python's per-code-point regex scanning); character classes are the
  ASCII sets the source's regexes use.
* A raised-and-uncaught Python exception is modelled as `Except.error`;
  functions whose exceptions are all caught internally are total.
* The regexes of the source are small and fixed, so each one is translated
  into a direct matcher; where a greedy sub-pattern can backtrack the matcher
  implements the (unique) surviving split, documented at the definition.
-/

deriving instance DecidableEq for Except

/-! ## Character classes and low-level string helpers -/

/-- The class `[0-9]` (the source's patterns use ASCII digits). -/
def isDigitCh (c : Char) : Bool := '0' ≤ c && c ≤ '9'

/-- The class `[^0-9]`. -/
def ndg (c : Char) : Bool := !(isDigitCh c)

/-- The class `[\d,]` used for the amount groups. -/
def digitComma (c : Char) : Bool := isDigitCh c || c == ','

/-- The class `[\d,\.]` used by `extract_numbers_from_text`. -/
def digitCommaDot (c : Char) : Bool := isDigitCh c || c == ',' || c == '.'

/-- Python's `\s` on the ASCII range: space, tab, newline, carriage return,
vertical tab, form feed. -/
def isWsCh (c : Char) : Bool :=
  c == ' ' || c == '\t' || c == '\n' || c == '\r' || c == '\x0b' || c == '\x0c'

/-- ASCII letters `[A-Za-z]`. -/
def isAlphaCh (c : Char) : Bool := ('A' ≤ c && c ≤ 'Z') || ('a' ≤ c && c ≤ 'z')

/-- ASCII lower-casing of one character (`str.lower` / `re.IGNORECASE` on the
ASCII letters the source's patterns and keywords use). -/
def asciiLowerChar (c : Char) : Char :=
  if 'A' ≤ c && c ≤ 'Z' then Char.ofNat (c.toNat + 32) else c

/-- ASCII lower-casing of a string, as a character list. -/
def asciiLowerL (s : List Char) : List Char := s.map asciiLowerChar

/-- `str.strip()`: drop whitespace from both ends. -/
def pyStrip (s : List Char) : List Char :=
  ((s.dropWhile isWsCh).reverse.dropWhile isWsCh).reverse

/-- Python's `needle in hay` substring test. -/
def strContains (hay needle : List Char) : Bool :=
  (List.range (hay.length + 1)).any (fun i => needle.isPrefixOf (hay.drop i))

/-! ## Executable rational arithmetic

The standard `Rat.add` / `Rat.sub` are `@[irreducible]`, so closed terms
built from them cannot be evaluated by `decide`.  The embedding therefore
uses the reducible clones below, built directly from `mkRat`; the theorems
`qadd_eq`, `qsub_eq` and `qsum_eq` (in the theorem section) prove that they
are exactly addition, subtraction and summation on `ℚ`. -/

/-- Reducible addition on `ℚ` (see `qadd_eq`). -/
def qadd (a b : ℚ) : ℚ := mkRat (a.num * b.den + b.num * a.den) (a.den * b.den)

/-- Reducible subtraction on `ℚ` (see `qsub_eq`). -/
def qsub (a b : ℚ) : ℚ := qadd a (-b)

/-- Reducible summation on `ℚ` (see `qsum_eq`). -/
def qsum (l : List ℚ) : ℚ := l.foldl qadd 0

/-! ## Python `float()` on numeric-looking strings

The source only ever calls `float` on strings drawn from the characters
`0-9`, `.`, `-` (commas are removed first, `clean_numeric_value` strips
everything else).  Over that alphabet Python accepts `sign? (digits
('.' digits?)? | '.' digits)` and raises `ValueError` otherwise, which the
parser below reproduces; the value is returned exactly, as a rational. -/

/-- Value of a digit string (most significant first). -/
def digitsVal (ds : List Char) : ℕ :=
  ds.foldl (fun acc c => 10 * acc + (c.toNat - '0'.toNat)) 0

/-- Parse an unsigned decimal: `digits ('.' digits?)?` or `'.' digits`,
nothing else, at least one digit in total. -/
def pyFloatUnsigned? (s : List Char) : Option ℚ :=
  let ip := s.takeWhile isDigitCh
  match s.drop ip.length with
  | [] => if ip.isEmpty then Option.none else some (digitsVal ip)
  | '.' :: frac =>
    if frac.all isDigitCh && !(ip.isEmpty && frac.isEmpty) then
      -- the decimal `ip.frac`, i.e. (ip·10^k + frac) / 10^k
      some (mkRat (digitsVal ip * 10 ^ frac.length + digitsVal frac) (10 ^ frac.length))
    else Option.none
  | _ => Option.none

/-- Python `float(s)` for strings over `[0-9.\-]`; `Option.none` models
`ValueError`. -/
def pyFloat? (s : List Char) : Option ℚ :=
  match s with
  | '-' :: rest => (pyFloatUnsigned? rest).map Neg.neg
  | _ => pyFloatUnsigned? s

/-- `re.sub(r"[^\d\.\-]", "", val)`: keep only digits, dots and minus signs. -/
def stripNonNumeric (s : List Char) : List Char :=
  s.filter (fun c => isDigitCh c || c == '.' || c == '-')

/-! ## The `Total[^0-9]*([\d,]+)` matcher (`extract_total_budget`)

`[^0-9]*` is greedy: it runs to the first digit, where `[\d,]+` then matches
the maximal digit/comma run.  When no digit follows at all, the engine
backtracks `[^0-9]*` from the right and stops at the last position whose
character is in the group's class (necessarily a comma), so the group
becomes the class run starting at the last comma.  `matchNumTail`
implements exactly these two cases; it returns the captured group and the
number of characters consumed from its argument (= match end offset). -/

/-- Index of the last element satisfying `p`, if any. -/
def lastIdxWhere (p : Char → Bool) : List Char → Option ℕ
  | [] => Option.none
  | c :: tl =>
    match lastIdxWhere p tl with
    | some i => some (i + 1)
    | Option.none => if p c then some 0 else Option.none

/-- Tail of the patterns `[^0-9]*(<cls>+)` for a class `cls` containing the
digits: returns the captured group and the consumed length.  When a digit
follows (`dropWhile` is non-empty) the group is the maximal class run
there; otherwise the group is the class run starting at the last class
character of the (all non-digit) remainder. -/
def matchNumTail (cls : Char → Bool) (t : List Char) : Option (List Char × ℕ) :=
  match t.dropWhile ndg with
  | [] =>
    match lastIdxWhere cls (t.takeWhile ndg) with
    | some i =>
      some (((t.takeWhile ndg).drop i).takeWhile cls,
            i + (((t.takeWhile ndg).drop i).takeWhile cls).length)
    | Option.none => Option.none
  | d :: r2 =>
    some ((d :: r2).takeWhile cls,
          (t.takeWhile ndg).length + ((d :: r2).takeWhile cls).length)

/-- The literal `total` (the pattern is compiled with `re.IGNORECASE`). -/
def TOTAL_LIT : List Char := ['t', 'o', 't', 'a', 'l']

/-- One attempt of `re.compile(r"Total[^0-9]*([\d,]+)", re.IGNORECASE)` at the
start of `s`: the captured group and the total consumed length. -/
def totalMatchAt (s : List Char) : Option (List Char × ℕ) :=
  if asciiLowerL (s.take 5) = TOTAL_LIT then
    match matchNumTail digitComma (s.drop 5) with
    | some gn => some (gn.1, 5 + gn.2)
    | Option.none => Option.none
  else Option.none

/-- `pattern.findall(text)`: scan left to right, resuming after each match.
The second argument counts characters of the previous match still to be
skipped, so `totalScan s k = totalScan (s.drop k) 0`
(`totalScan_skip` below); a match of consumed length `n` therefore resumes
the scan at `s.drop n`, exactly as `findall` does. -/
def totalScan : List Char → ℕ → List (List Char)
  | [], _ => []
  | _ :: tl, skip + 1 => totalScan tl skip
  | c :: tl, 0 =>
    match totalMatchAt (c :: tl) with
    | some gn => gn.1 :: totalScan tl (gn.2 - 1)
    | Option.none => totalScan tl 0

/-- All groups captured by `findall` on the whole text. -/
def totalFindAll (s : List Char) : List (List Char) := totalScan s 0

/-- Parse one captured group the way the source does:
`float(m.replace(",", ""))`, skipping the `ValueError` case. -/
def parseGroup? (g : List Char) : Option ℚ := pyFloat? (g.filter (fun c => c ≠ ','))

/-- `extract_total_budget` from `backend.py`: all `Total ... number` matches,
parsed (unparseable groups skipped), maximum returned, `None` when empty. -/
def extract_total_budget (text : String) : Option ℚ :=
  ((totalFindAll text.data).filterMap parseGroup?).max?

/-- The value of a `Total`-occurrence starting exactly at `s`, if the
occurrence exists and its group parses (spec side of claim C4). -/
def totalOccValueHead (s : List Char) : List ℚ :=
  match totalMatchAt s with
  | some gn => (parseGroup? gn.1).toList
  | Option.none => []

/-- Spec side of claim C4: the parsed value of the `Total`-occurrence at
every position of the text, in document order. -/
def totalOccurrenceValues : List Char → List ℚ
  | [] => []
  | c :: tl => totalOccValueHead (c :: tl) ++ totalOccurrenceValues tl

/-! ## `extract_agriculture_budget`

Pattern: `(?P<programme>[A-Za-z\s\-\(\)]+)\s+\d+\s+(?P<budget2024>[\d,]+)\s+
(?P<budget2023>[\d,]+)\s+(?P<budget2022>[\d,]+)`.

The programme class contains `\s`, so the greedy programme group swallows the
whole letter/space run; for the following `\s+` to match, the engine
backtracks exactly one character (shorter programme splits leave `\s+`
followed by a non-digit run character, which `\d+` rejects).  Hence a match
at a position requires: the maximal programme-class run there has length at
least two and ends in whitespace (its last character becomes the `\s+`, the
rest is the programme group), and is followed directly by digits, then a
whitespace run, then three `[\d,]+` groups separated by whitespace runs,
each group maximal (shortening any of them puts a class character where
`\s+` must match). -/

/-- The programme-name class `[A-Za-z\s\-\(\)]`. -/
def progClass (c : Char) : Bool :=
  isAlphaCh c || isWsCh c || c == '-' || c == '(' || c == ')'

/-- One match of the agriculture row pattern: the three captured amount
groups, the programme group, and the consumed length. -/
structure AgriM where
  prog : List Char
  g1 : List Char
  g2 : List Char
  g3 : List Char
  consumed : ℕ
deriving DecidableEq

/-- One attempt of the agriculture row pattern at the start of `s`. -/
def agriMatchAt (s : List Char) : Option AgriM :=
  let run := s.takeWhile progClass
  if run.length < 2 then Option.none
  else if !(run.getLastD ' ' |> isWsCh) then Option.none
  else
    let t0 := s.drop run.length
    let d := t0.takeWhile isDigitCh
    if d.isEmpty then Option.none else
    let t1 := t0.drop d.length
    let w1 := t1.takeWhile isWsCh
    if w1.isEmpty then Option.none else
    let t2 := t1.drop w1.length
    let g1 := t2.takeWhile digitComma
    if g1.isEmpty then Option.none else
    let t3 := t2.drop g1.length
    let w2 := t3.takeWhile isWsCh
    if w2.isEmpty then Option.none else
    let t4 := t3.drop w2.length
    let g2 := t4.takeWhile digitComma
    if g2.isEmpty then Option.none else
    let t5 := t4.drop g2.length
    let w3 := t5.takeWhile isWsCh
    if w3.isEmpty then Option.none else
    let t6 := t5.drop w3.length
    let g3 := t6.takeWhile digitComma
    if g3.isEmpty then Option.none else
    some ⟨run.take (run.length - 1), g1, g2, g3,
          run.length + d.length + w1.length + g1.length + w2.length +
            g2.length + w3.length + g3.length⟩

/-- `pattern.finditer(text)`, as a structural scan with a skip counter
(see `totalScan`); a match of consumed length `n` resumes at `s.drop n`. -/
def agriScan : List Char → ℕ → List AgriM
  | [], _ => []
  | _ :: tl, skip + 1 => agriScan tl skip
  | c :: tl, 0 =>
    match agriMatchAt (c :: tl) with
    | some m => m :: agriScan tl (m.consumed - 1)
    | Option.none => agriScan tl 0

/-- All matches of the agriculture row pattern on the whole text. -/
def agriFindAll (s : List Char) : List AgriM := agriScan s 0

/-- One row of the returned `DataFrame`. -/
structure AgriRow where
  programme : List Char
  y2024 : ℚ
  y2023 : ℚ
  y2022 : ℚ
deriving DecidableEq

/-- `float(match.group(..).replace(",", ""))`; an empty digit string raises
`ValueError`, which `extract_agriculture_budget` does **not** catch. -/
def pyFloatE (g : List Char) : Except String ℚ :=
  match pyFloat? (g.filter (fun c => c ≠ ',')) with
  | some q => Except.ok q
  | Option.none => Except.error "ValueError: could not convert string to float"

/-- `extract_agriculture_budget` from `backend.py`.  Returns
`Except.error` for the uncaught `ValueError`, `Except.ok Option.none` for the
`(None, None)` empty case, and otherwise the rows plus the column sums
`{"2022": _, "2023": _, "2024": _}` (modelled as a `(2022, 2023, 2024)`
triple). -/
def extract_agriculture_budget (text : String) :
    Except String (Option (List AgriRow × (ℚ × ℚ × ℚ))) := do
  let ms := agriFindAll text.data
  let rows ← ms.foldlM (fun acc m => do
    let prog := pyStrip m.prog
    if strContains (asciiLowerL prog) "agric".data then
      let b24 ← pyFloatE m.g1
      let b23 ← pyFloatE m.g2
      let b22 ← pyFloatE m.g3
      pure (acc ++ [AgriRow.mk prog b24 b23 b22])
    else
      pure acc) ([] : List AgriRow)
  if rows.isEmpty then pure Option.none
  else
    pure (some (rows,
      (qsum (rows.map AgriRow.y2022), qsum (rows.map AgriRow.y2023),
       qsum (rows.map AgriRow.y2024))))

/-! ## Python values and dictionaries

The AI result and the merged budget record are Python dicts with arbitrary
JSON-like values.  Dicts are modelled as insertion-ordered association
lists with unique keys: `dget` is `d[k]` / `d.get(k)` (first binding),
`dset` is `d[k] = v` (update in place, else append), matching dict
semantics on unique keys. -/

/-- A Python/JSON value as the pipeline handles it. -/
inductive PyVal where
  | none
  | num (q : ℚ)
  | str (s : String)
  | list (xs : List PyVal)
  | dict (kvs : List (String × PyVal))

/-- Association lists standing for Python dicts. -/
abbrev PyDict := List (String × PyVal)

/-- `d.get(k)`: value of the first binding of `k`. -/
def dget (d : PyDict) (k : String) : Option PyVal :=
  (d.find? (fun kv => kv.1 == k)).map Prod.snd

/-- `d[k] = v`: replace the first binding of `k`, else append. -/
def dset : PyDict → String → PyVal → PyDict
  | [], k, v => [(k, v)]
  | (k', v') :: tl, k, v =>
    if k' == k then (k', v) :: tl else (k', v') :: dset tl k v

/-- Python truthiness of a value (`if v:` / `x or y`). -/
def pyTruthy : PyVal → Bool
  | PyVal.none => false
  | PyVal.num q => q ≠ 0
  | PyVal.str s => s ≠ ""
  | PyVal.list xs => !xs.isEmpty
  | PyVal.dict kvs => !kvs.isEmpty

/-! ## `extract_numbers_from_text`

For each keyword the source compiles `rf"{key}[^0-9]*([\d,\.]+)"` (the
keywords used contain no regex metacharacters, so the keyword matches
literally, case-sensitively against the lower-cased text) and `re.search`
takes the first position with a match. -/

/-- `re.search` of `key[^0-9]*(<cls>+)`: first matching position's group. -/
def searchKeyNum (key : List Char) (cls : Char → Bool) : List Char → Option (List Char)
  | [] =>
    if key.isPrefixOf ([] : List Char) then (matchNumTail cls []).map Prod.fst
    else Option.none
  | c :: tl =>
    match (if key.isPrefixOf (c :: tl) then matchNumTail cls ((c :: tl).drop key.length)
           else Option.none) with
    | some gn => some gn.1
    | Option.none => searchKeyNum key cls tl

/-- `extract_numbers_from_text` from `backend.py`: lower-case the text, then
for each keyword store the first matched group parsed as a float (`None` on
`ValueError`, which is caught there). -/
def extract_numbers_from_text (text : String) (keywords : List String) : PyDict :=
  if text.isEmpty then []  -- `if not text: return results`
  else
    let kws := if keywords.isEmpty then
        ["total budget", "public", "adaptation", "mitigation"]
      else keywords
    let clean_text := asciiLowerL text.data
    kws.foldl (fun results key =>
      match searchKeyNum key.data digitCommaDot clean_text with
      | some g =>
        let numStr := g.filter (fun c => c ≠ ',')
        dset results key (match pyFloat? numStr with
          | some q => PyVal.num q
          | Option.none => PyVal.none)
      | Option.none => results) []

/-! ## Numeric cleaning and the reconciliation/merge engine -/

/-- `clean_numeric_value` from `backend.py`. -/
def clean_numeric_value : PyVal → PyVal
  | PyVal.none => PyVal.none
  | PyVal.num q => PyVal.num q       -- float(val) on int/float
  | PyVal.str s =>
    match pyFloat? (stripNonNumeric s.data) with
    | some q => PyVal.num q
    | Option.none => PyVal.none      -- ValueError → None
  | _ => PyVal.none                  -- the final `return None`

mutual

/-- `_clean_recursive` from `backend.py`: dicts and lists are walked
recursively (`cleanInKvs` / `cleanInList` are the recursions over the
entries), scalars go through `clean_numeric_value`. -/
def _clean_recursive : PyVal → PyVal
  | PyVal.none => PyVal.none
  | PyVal.num q => PyVal.num q
  | PyVal.str s => clean_numeric_value (PyVal.str s)
  | PyVal.dict kvs => PyVal.dict (cleanInKvs kvs)
  | PyVal.list xs => PyVal.list (cleanInList xs)

/-- `_clean_recursive` mapped over list elements. -/
def cleanInList : List PyVal → List PyVal
  | [] => []
  | x :: tl => _clean_recursive x :: cleanInList tl

/-- `_clean_recursive` mapped over dict values. -/
def cleanInKvs : List (String × PyVal) → List (String × PyVal)
  | [] => []
  | (k, v) :: tl => (k, _clean_recursive v) :: cleanInKvs tl

end

/-- The keyword list `extract_combined_budget_info` passes to
`extract_numbers_from_text`. -/
def budget_keywords : List String :=
  ["total budget",
   "total public investment in climate initiatives",
   "percentage of national budget allocated to climate adaptation",
   "private sector investment mobilized",
   "adaptation", "mitigation", "energy", "agriculture", "health",
   "transport", "water"]

/-- The fuzzy keyword → canonical field table of
`extract_combined_budget_info` (insertion order matters: the first `kw` that
is a substring of the cleaned key wins, then `break`). -/
def keyword_field_mapping : List (String × String) :=
  [("total", "Total Budget"), ("adaptation", "Adaptation"),
   ("mitigation", "Mitigation"), ("public", "Public"),
   ("energy", "Sectors"), ("agriculture", "Sectors"),
   ("health", "Sectors"), ("transport", "Sectors"), ("water", "Sectors")]

/-- Python `str.capitalize()` (first character upper, rest lower; the
arguments here are the ASCII keyword tokens). -/
def pyCapitalize (s : String) : String :=
  match s.data with
  | [] => ""
  | c :: tl =>
    String.mk ((if 'a' ≤ c && c ≤ 'z' then Char.ofNat (c.toNat - 32) else c)
               :: asciiLowerL tl)

/-- One iteration of the keyword-injection loop of
`extract_combined_budget_info`.  For a `Sectors` keyword the source runs
`merged.setdefault("Sectors", {})` and then
`merged["Sectors"][kw.capitalize()] = _clean_recursive(v)`
**unconditionally**; subscript assignment on a non-dict raises `TypeError`
(modelled as `Except.error`).  For the scalar labels the value is written
only when the label is absent or `None`. -/
def inject_keyword (merged : PyDict) (k : String) (v : PyVal) :
    Except String PyDict :=
  let clean_key := pyStrip (asciiLowerL k.data)
  match keyword_field_mapping.find? (fun kwl => strContains clean_key kwl.1.data) with
  | Option.none => Except.ok merged
  | some kwl =>
    if kwl.2 == "Sectors" then
      let merged1 := if (dget merged "Sectors").isSome then merged
                     else dset merged "Sectors" (PyVal.dict [])
      match dget merged1 "Sectors" with
      | some (PyVal.dict skvs) =>
        Except.ok (dset merged1 "Sectors"
          (PyVal.dict (dset skvs (pyCapitalize kwl.1) (_clean_recursive v))))
      | _ => Except.error "TypeError: value does not support item assignment"
    else
      -- `if label not in merged or merged.get(label) is None:`
      match dget merged kwl.2 with
      | Option.none => Except.ok (dset merged kwl.2 (_clean_recursive v))
      | some PyVal.none => Except.ok (dset merged kwl.2 (_clean_recursive v))
      | some _ => Except.ok merged

/-- The merge of `extract_combined_budget_info`: start from the AI result,
cleaning recursively, then inject the keyword results. -/
def merge_budget_info (ai_results : PyDict) (keyword_results : PyDict) :
    Except String PyDict := do
  let merged := ai_results.foldl (fun m kv => dset m kv.1 (_clean_recursive kv.2)) []
  keyword_results.foldlM (fun m kv => inject_keyword m kv.1 kv.2) merged

/-- `extract_combined_budget_info` from `backend.py`, with the AI result (an
outbound network call) passed in as a parameter; `ai_extract_budget_info`
always returns a dict, and `or {}` maps a falsy result to `{}`, which for
dicts is the identity on content. -/
def extract_combined_budget_info (ai_results : PyDict) (text : String) :
    Except String PyDict :=
  merge_budget_info (if pyTruthy (PyVal.dict ai_results) then ai_results else [])
    (extract_numbers_from_text text budget_keywords)

/-! ## `prepare_graph_data`

The output dict has a fixed shape, modelled as a structure: `projectsG`
holds one `(Programme value, Allocated)` pair per climate-project line
item, `sectorTotal`/`projectsTotal`/`unallocated` are the three `Total`s of
the `categories` list, and `yearlyG` the three `{"Year": ..., "Total": ...}`
entries.  Python exceptions (`TypeError` on iterating/subscripting
ill-shaped values or subtracting from a non-number, `KeyError` on a line
item without `"Programme"`) are `Except.error`; the evaluation order of the
source (projects graph first, then the categories arithmetic) is kept so
the error/success boundary is faithful. -/

/-- The graphs dict returned by `prepare_graph_data`. -/
structure GraphsOut where
  projectsG : List (PyVal × ℚ)
  sectorTotal : ℚ
  projectsTotal : ℚ
  unallocated : ℚ
  yearlyG : List (ℤ × ℚ)

/-- `sum(v for k, v in p.items() if isinstance(v, (int, float)))`. -/
def pyNumSum (kvs : List (String × PyVal)) : ℚ :=
  kvs.foldl (fun acc kv => match kv.2 with
    | PyVal.num q => qadd acc q
    | _ => acc) 0

/-- `data.get("Climate Projects", [])` followed by iterating `p` and
subscripting `p["Programme"]`: a list yields its items (each must be a
dict), an empty string or empty dict iterates to nothing, and any other
value raises when iterated or when its first item is subscripted. -/
def projectItems : PyVal → Except String (List (List (String × PyVal)))
  | PyVal.list ps => ps.mapM (fun p => match p with
      | PyVal.dict kvs => Except.ok kvs
      | _ => Except.error "TypeError: item is not subscriptable")
  | PyVal.str s => if s.isEmpty then Except.ok [] else
      Except.error "TypeError: string indices must be integers"
  | PyVal.dict kvs => if kvs.isEmpty then Except.ok [] else
      Except.error "TypeError: string indices must be integers"
  | _ => Except.error "TypeError: object is not iterable"

/-- `p["Programme"]`: `KeyError` when the key is absent. -/
def getProgramme (kvs : List (String × PyVal)) : Except String PyVal :=
  match dget kvs "Programme" with
  | some v => Except.ok v
  | Option.none => Except.error "KeyError: Programme"

/-- One entry of `graphs["projects"]`:
`{"Programme": p["Programme"], "Allocated": sum(...)}`. -/
def projEntry (kvs : List (String × PyVal)) : Except String (PyVal × ℚ) := do
  let prog ← getProgramme kvs
  pure (prog, pyNumSum kvs)

/-- `(data.get("Sectors") or {}).values()`: the dict's entries;
`AttributeError` when the (truthy) value is not a dict. -/
def sectorEntries (v : PyVal) : Except String (List (String × PyVal)) :=
  match (if pyTruthy v then v else PyVal.dict []) with
  | PyVal.dict kvs => Except.ok kvs
  | _ => Except.error "AttributeError: no attribute values"

/-- One step of `sum(v for v in ... if v)`: truthy non-numbers make the
`sum` raise `TypeError`. -/
def sectorAddStep (acc : ℚ) (kv : String × PyVal) : Except String ℚ :=
  if pyTruthy kv.2 then
    match kv.2 with
    | PyVal.num q => Except.ok (qadd acc q)
    | _ => Except.error "TypeError: unsupported operand type for +"
  else Except.ok acc

/-- The left operand of `total_budget - (...)` must be a number. -/
def asNumber (v : PyVal) : Except String ℚ :=
  match v with
  | PyVal.num q => Except.ok q
  | _ => Except.error "TypeError: unsupported operand type for -"

/-- `prepare_graph_data` from `backend.py`. -/
def prepare_graph_data (data : PyDict) : Except String GraphsOut := do
  let projects ← projectItems ((dget data "Climate Projects").getD (PyVal.list []))
  let projGraph ← projects.mapM projEntry
  let sectorKvs ← sectorEntries ((dget data "Sectors").getD PyVal.none)
  let sector_total ← sectorKvs.foldlM sectorAddStep 0
  let projects_total := qsum (projects.map pyNumSum)
  -- max(total_budget - (sector_total + projects_total), 0)
  let tb ← asNumber ((dget data "Total Budget").getD (PyVal.num 0))
  let unalloc := max (qsub tb (qadd sector_total projects_total)) 0
  let yearly := [(2022 : ℤ), 2023, 2024].map (fun y =>
    (y, projects.foldl (fun acc kvs =>
      match dget kvs (toString y) with
      | some (PyVal.num q) => qadd acc q
      | _ => acc) 0))
  pure ⟨projGraph, sector_total, projects_total, unalloc, yearly⟩

/-- Well-shapedness of `"Total Budget"`: absent or a number. -/
def tbWellShaped (data : PyDict) : Bool :=
  match dget data "Total Budget" with
  | Option.none => true
  | some (PyVal.num _) => true
  | some _ => false

/-- Well-shapedness of `"Climate Projects"`: absent, or a list of dicts each
binding `"Programme"`. -/
def cpWellShaped (data : PyDict) : Bool :=
  match dget data "Climate Projects" with
  | Option.none => true
  | some (PyVal.list ps) => ps.all (fun p => match p with
      | PyVal.dict kvs => (dget kvs "Programme").isSome
      | _ => false)
  | some _ => false

/-- Well-shapedness of `"Sectors"`: absent, falsy (e.g. null), or a dict
whose truthy values are all numbers. -/
def sectorsWellShaped (data : PyDict) : Bool :=
  match dget data "Sectors" with
  | Option.none => true
  | some v =>
    if pyTruthy v then
      match v with
      | PyVal.dict kvs => kvs.all (fun kv => if pyTruthy kv.2 then
          (match kv.2 with | PyVal.num _ => true | _ => false) else true)
      | _ => false
    else true

/-! ## The AI extraction client (`get_client` / `ai_extract_budget_info`)

The outbound network behaviour is abstracted into oracles: `primary i k` is
what the OpenAI call returns on loop iteration `i` when made with the
client built from credential slot `k` (the parse of the reply through
`_extract_json_from_text` is folded into the outcome, since no claim
depends on the JSON-repair internals), and the single DeepSeek fallback
call is a `SecondaryOutcome`.  `API_KEYS` has exactly two entries in the
source, so the loop bound `max(1, len(API_KEYS))` is `2`. -/

/-- Outcome of one primary-provider attempt: a reply whose extracted JSON is
`parsed` (`Option.none` when `_extract_json_from_text` fails), a
rate-limit/authentication error, or any other exception. -/
inductive PrimaryOutcome where
  | ok (parsed : Option PyDict)
  | authOrRate
  | otherError

/-- Outcome of the single DeepSeek fallback call: an HTTP reply whose
extracted JSON is `parsed` (with the raw reply text `raw`), or a raised
transport error (`requests.post` / `raise_for_status`). -/
inductive SecondaryOutcome where
  | reply (parsed : Option PyDict) (raw : String)
  | transportErr

/-- The process-wide client state: the rotation index `current_key_index`
and the credential slot the cached global `client` was built from. -/
structure AiState where
  currentKeyIndex : ℕ
  clientIdx : ℕ
deriving DecidableEq

/-- `get_client` from `backend.py`.  Its body is
`try: return client / except (RateLimitError, AuthenticationError): <rotate>`;
evaluating and returning the cached global `client` raises neither
exception, so the rotation handler is unreachable and the state is returned
unchanged. -/
def get_client (st : AiState) : ℕ × AiState := (st.clientIdx, st)

/-- `len(API_KEYS)` (`API_KEYS` is a two-element list in the source). -/
def API_KEYS_length : ℕ := 2

/-- The `for _ in range(max(1, len(API_KEYS)))` loop of
`ai_extract_budget_info`: returns the list of credential slots actually
used (the trace, for the rotation claim) and the parsed result if any
iteration returned a non-empty parse.  `continue` on an empty/absent parse
or an auth/rate error, `break` on any other exception. -/
def aiPrimaryLoop (primary : ℕ → ℕ → PrimaryOutcome) :
    ℕ → AiState → List ℕ × Option PyDict
  | 0, _ => ([], Option.none)
  | n + 1, st =>
    let ks := get_client st
    match primary n ks.1 with
    | PrimaryOutcome.ok (some d) =>
      if d.isEmpty then
        -- `if parsed:` — an empty dict is falsy, so the loop continues
        let tr := aiPrimaryLoop primary n ks.2
        (ks.1 :: tr.1, tr.2)
      else ([ks.1], some d)
    | PrimaryOutcome.ok Option.none =>
      let tr := aiPrimaryLoop primary n ks.2
      (ks.1 :: tr.1, tr.2)
    | PrimaryOutcome.authOrRate =>
      let tr := aiPrimaryLoop primary n ks.2
      (ks.1 :: tr.1, tr.2)
    | PrimaryOutcome.otherError => ([ks.1], Option.none)

/-- `ai_extract_budget_info` from `backend.py`: the primary loop, then the
DeepSeek fallback; every exception of the fallback block is caught and
yields `{}`, an unparsable reply yields `{"raw_reply": reply}`. -/
def ai_extract_budget_info (primary : ℕ → ℕ → PrimaryOutcome)
    (secondary : SecondaryOutcome) (hasDeepseekKey : Bool) (st : AiState) : PyDict :=
  match (aiPrimaryLoop primary (max 1 API_KEYS_length) st).2 with
  | some d => d
  | Option.none =>
    if !hasDeepseekKey then []  -- "No DeepSeek API key configured." → {}
    else
      match secondary with
      | SecondaryOutcome.transportErr => []  -- `except Exception: return {}`
      | SecondaryOutcome.reply parsed raw =>
        match parsed with
        | some d => if d.isEmpty then [("raw_reply", PyVal.str raw)] else d
        | Option.none => [("raw_reply", PyVal.str raw)]

/-! ## The text normalizer (claim C9)

Modelled from the spec: the Text Normalizer component (spec §4.1) has no
implementation under `src/` — the web layer passes the extracted PDF text
on directly — so it is modelled from the spec's words: "output a single
string with all runs of whitespace (including newlines) collapsed to one
space", with `None`/empty input yielding empty output. -/

mutual

/-- Modelled from the spec: collapse every maximal whitespace run to one
space, leaving other characters unchanged.  On meeting a whitespace
character one space is emitted and `collapseSkipWs` consumes the rest of
the run. -/
def collapseWs : List Char → List Char
  | [] => []
  | c :: tl => if isWsCh c then ' ' :: collapseSkipWs tl else c :: collapseWs tl

/-- Modelled from the spec: consume the remainder of a whitespace run (one
space for it has already been emitted), then continue collapsing. -/
def collapseSkipWs : List Char → List Char
  | [] => []
  | c :: tl => if isWsCh c then collapseSkipWs tl else c :: collapseWs tl

end

/-- Modelled from the spec: the normalizer on an optional input string
(`None` yields empty output). -/
def normalize_text (o : Option String) : String :=
  String.mk (collapseWs ((o.getD "").data))

/-- Checks that a string has its whitespace collapsed: every whitespace
character is a plain space and no two adjacent characters are both
whitespace. -/
def wsRunsCollapsed : List Char → Bool
  | [] => true
  | [c] => !isWsCh c || c == ' '
  | c1 :: c2 :: tl =>
    (!isWsCh c1 || (c1 == ' ' && !isWsCh c2)) && wsRunsCollapsed (c2 :: tl)

/-- The head of a character list is not whitespace (or the list is empty). -/
def headNonWs : List Char → Bool
  | [] => true
  | c :: _ => !isWsCh c

/-- Invariant of the merge loop: if the merged record binds `"Sectors"`, the
bound value is a dict (so sector sub-key assignment cannot raise). -/
def SectorsDictInv (m : PyDict) : Prop :=
  ∀ v, dget m "Sectors" = some v → ∃ kvs, v = PyVal.dict kvs

/-! # Theorems -/

/-! ## The reducible rational clones are the standard operations -/

theorem qadd_eq (a b : ℚ) : qadd a b = a + b := by
  have ha : (a.den : ℤ) ≠ 0 := Int.ofNat_ne_zero.2 a.den_nz
  have hb : (b.den : ℤ) ≠ 0 := Int.ofNat_ne_zero.2 b.den_nz
  rw [qadd, Rat.mkRat_eq_divInt, Nat.cast_mul,
      ← Rat.divInt_add_divInt _ _ ha hb, Rat.num_divInt_den, Rat.num_divInt_den]

theorem qsub_eq (a b : ℚ) : qsub a b = a - b := by
  rw [qsub, qadd_eq, ← sub_eq_add_neg]

theorem qsum_foldl (l : List ℚ) (acc : ℚ) : l.foldl qadd acc = acc + l.sum := by
  induction l generalizing acc with
  | nil => simp
  | cons x tl ih => simp [qadd_eq, ih, List.sum_cons]; ring

theorem qsum_eq (l : List ℚ) : qsum l = l.sum := by
  rw [qsum, qsum_foldl, zero_add]

/-! ## Claim C9 (text normalizer) -/

theorem collapse_idem_bound : ∀ (n : ℕ) (l : List Char), l.length ≤ n →
    collapseWs (collapseWs l) = collapseWs l ∧
    collapseSkipWs (collapseSkipWs l) = collapseSkipWs l := by
  intro n
  induction n with
  | zero =>
    intro l hl
    have hnil : l = [] := List.eq_nil_of_length_eq_zero (Nat.le_zero.mp hl)
    subst hnil; exact ⟨rfl, rfl⟩
  | succ n ih =>
    intro l hl
    match l with
    | [] => exact ⟨rfl, rfl⟩
    | c :: tl =>
      have htl : tl.length ≤ n := by simp only [List.length_cons] at hl; omega
      by_cases hc : isWsCh c
      · constructor
        · show collapseWs (collapseWs (c :: tl)) = collapseWs (c :: tl)
          simp only [collapseWs, hc, if_true]
          show ' ' :: collapseSkipWs (collapseSkipWs tl) = ' ' :: collapseSkipWs tl
          rw [(ih tl htl).2]
        · show collapseSkipWs (collapseSkipWs (c :: tl)) = collapseSkipWs (c :: tl)
          simp only [collapseSkipWs, hc, if_true]
          exact (ih tl htl).2
      · have hc' : isWsCh c = false := by simpa using hc
        constructor
        · show collapseWs (collapseWs (c :: tl)) = collapseWs (c :: tl)
          simp only [collapseWs, hc', Bool.false_eq_true, if_false]
          rw [(ih tl htl).1]
        · show collapseSkipWs (collapseSkipWs (c :: tl)) = collapseSkipWs (c :: tl)
          simp only [collapseSkipWs, hc', Bool.false_eq_true, if_false]
          show c :: collapseWs (collapseWs tl) = c :: collapseWs tl
          rw [(ih tl htl).1]

theorem wsRunsCollapsed_cons_space (X : List Char) (h1 : headNonWs X = true)
    (h2 : wsRunsCollapsed X = true) : wsRunsCollapsed (' ' :: X) = true := by
  match X with
  | [] => rfl
  | c2 :: tl =>
    show ((!isWsCh ' ' || (' ' == ' ' && !isWsCh c2)) && wsRunsCollapsed (c2 :: tl)) = true
    have : (!isWsCh c2) = true := h1
    simp [this, h2]

theorem wsRunsCollapsed_cons_nonws (c : Char) (X : List Char)
    (hc : isWsCh c = false) (h2 : wsRunsCollapsed X = true) :
    wsRunsCollapsed (c :: X) = true := by
  match X with
  | [] => show (!isWsCh c || c == ' ') = true; simp [hc]
  | c2 :: tl =>
    show ((!isWsCh c || (c == ' ' && !isWsCh c2)) && wsRunsCollapsed (c2 :: tl)) = true
    simp [hc, h2]

theorem collapse_wsRuns_bound : ∀ (n : ℕ) (l : List Char), l.length ≤ n →
    wsRunsCollapsed (collapseWs l) = true ∧
    wsRunsCollapsed (collapseSkipWs l) = true ∧
    headNonWs (collapseSkipWs l) = true := by
  intro n
  induction n with
  | zero =>
    intro l hl
    have hnil : l = [] := List.eq_nil_of_length_eq_zero (Nat.le_zero.mp hl)
    subst hnil; exact ⟨rfl, rfl, rfl⟩
  | succ n ih =>
    intro l hl
    match l with
    | [] => exact ⟨rfl, rfl, rfl⟩
    | c :: tl =>
      have htl : tl.length ≤ n := by simp only [List.length_cons] at hl; omega
      have ih3 := ih tl htl
      by_cases hc : isWsCh c
      · refine ⟨?_, ?_, ?_⟩
        · show wsRunsCollapsed (collapseWs (c :: tl)) = true
          simp only [collapseWs, hc, if_true]
          exact wsRunsCollapsed_cons_space _ ih3.2.2 ih3.2.1
        · show wsRunsCollapsed (collapseSkipWs (c :: tl)) = true
          simp only [collapseSkipWs, hc, if_true]
          exact ih3.2.1
        · show headNonWs (collapseSkipWs (c :: tl)) = true
          simp only [collapseSkipWs, hc, if_true]
          exact ih3.2.2
      · have hc' : isWsCh c = false := by simpa using hc
        refine ⟨?_, ?_, ?_⟩
        · show wsRunsCollapsed (collapseWs (c :: tl)) = true
          simp only [collapseWs, hc', if_false]
          exact wsRunsCollapsed_cons_nonws _ _ hc' ih3.1
        · show wsRunsCollapsed (collapseSkipWs (c :: tl)) = true
          simp only [collapseSkipWs, hc', if_false]
          exact wsRunsCollapsed_cons_nonws _ _ hc' ih3.1
        · show headNonWs (collapseSkipWs (c :: tl)) = true
          simp only [collapseSkipWs, hc', if_false]
          show (!isWsCh c) = true
          simp [hc']

/-- C9: the normalizer (modelled from the spec, no implementation under
`src/`) collapses every whitespace run of its input to a single space
(`wsRunsCollapsed` holds of every output), is idempotent —
`normalize(normalize(x)) == normalize(x)` for all `x`, including
`x = None` — and maps `None` and empty input to empty output. -/
theorem c9_normalizer_collapses_idempotent_total :
    (∀ o : Option String,
      normalize_text (some (normalize_text o)) = normalize_text o) ∧
    (∀ o : Option String, wsRunsCollapsed (normalize_text o).data = true) ∧
    normalize_text Option.none = "" ∧ normalize_text (some "") = "" := by
  refine ⟨fun o => ?_, fun o => ?_, rfl, rfl⟩
  · show String.mk (collapseWs (collapseWs ((o.getD "").data))) =
      String.mk (collapseWs ((o.getD "").data))
    rw [(collapse_idem_bound ((o.getD "").data).length _ le_rfl).1]
  · show wsRunsCollapsed (collapseWs ((o.getD "").data)) = true
    exact (collapse_wsRuns_bound ((o.getD "").data).length _ le_rfl).1

/-! ## Dictionary lemmas -/

theorem dget_cons (a : String) (b : PyVal) (tl : PyDict) (k : String) :
    dget ((a, b) :: tl) k = if a == k then some b else dget tl k := by
  by_cases h : a == k
  · simp [dget, List.find?_cons_of_pos, h]
  · have h' : ((a, b).1 == k) = false := by simpa using h
    simp [dget, List.find?_cons_of_neg, h']

theorem dget_dset_self (d : PyDict) (k : String) (v : PyVal) :
    dget (dset d k v) k = some v := by
  induction d with
  | nil => simp [dset, dget_cons]
  | cons kv tl ih =>
    match kv with
    | (k1, v1) =>
      by_cases h : k1 == k
      · simp [dset, h, dget_cons]
      · simp [dset, h, dget_cons, ih]

theorem dget_dset_ne (d : PyDict) (k k' : String) (v : PyVal) (h : k' ≠ k) :
    dget (dset d k v) k' = dget d k' := by
  have hkk : (k == k') = false := by
    simp only [beq_eq_false_iff_ne, ne_eq]
    exact fun e => h e.symm
  induction d with
  | nil => simp [dset, dget_cons, hkk]
  | cons kv tl ih =>
    match kv with
    | (k1, v1) =>
      by_cases h1 : k1 == k
      · have h1' : k1 = k := by simpa using h1
        subst h1'
        simp [dset, dget_cons, hkk]
      · simp [dset, h1, dget_cons, ih]

theorem dset_eq_append (d : PyDict) (k : String) (v : PyVal)
    (h : ∀ kv ∈ d, kv.1 ≠ k) : dset d k v = d ++ [(k, v)] := by
  induction d with
  | nil => rfl
  | cons kv tl ih =>
    match kv with
    | (k1, v1) =>
      have h1 : (k1 == k) = false := by
        simpa using h (k1, v1) (List.mem_cons_self _ _)
      simp only [dset, h1, Bool.false_eq_true, if_false, List.cons_append]
      rw [ih (fun kv hkv => h kv (List.mem_cons_of_mem _ hkv))]

theorem foldl_dset_clean_append (ai : PyDict) (acc : PyDict)
    (hnd : (ai.map Prod.fst).Nodup)
    (hdisj : ∀ kv ∈ ai, ∀ kv' ∈ acc, kv.1 ≠ kv'.1) :
    ai.foldl (fun m kv => dset m kv.1 (_clean_recursive kv.2)) acc =
    acc ++ ai.map (fun kv => (kv.1, _clean_recursive kv.2)) := by
  induction ai generalizing acc with
  | nil => simp
  | cons kv tl ih =>
    match kv with
    | (k1, v1) =>
      simp only [List.foldl_cons, List.map_cons]
      have hset : dset acc k1 (_clean_recursive v1) = acc ++ [(k1, _clean_recursive v1)] := by
        apply dset_eq_append
        intro kv' hkv'
        exact (hdisj (k1, v1) (List.mem_cons_self _ _) kv' hkv').symm
      rw [hset]
      have hnd' : (tl.map Prod.fst).Nodup := by
        simp only [List.map_cons, List.nodup_cons] at hnd
        exact hnd.2
      have hk1 : k1 ∉ tl.map Prod.fst := by
        simp only [List.map_cons, List.nodup_cons] at hnd
        exact hnd.1
      have hdisj' : ∀ kv ∈ tl, ∀ kv' ∈ acc ++ [(k1, _clean_recursive v1)], kv.1 ≠ kv'.1 := by
        intro kv hkv kv' hkv'
        rcases List.mem_append.mp hkv' with hl | hr
        · exact hdisj kv (List.mem_cons_of_mem _ hkv) kv' hl
        · simp only [List.mem_singleton] at hr
          subst hr
          intro e
          have hmem : kv.1 ∈ tl.map Prod.fst := List.mem_map_of_mem Prod.fst hkv
          rw [e] at hmem
          exact hk1 hmem
      rw [ih (acc ++ [(k1, _clean_recursive v1)]) hnd' hdisj', List.append_assoc]
      rfl

theorem dget_map_clean (ai : PyDict) (k : String) :
    dget (ai.map (fun kv => (kv.1, _clean_recursive kv.2))) k =
    (dget ai k).map _clean_recursive := by
  induction ai with
  | nil => rfl
  | cons kv tl ih =>
    match kv with
    | (k1, v1) =>
      by_cases h : k1 == k
      · simp [dget_cons, h]
      · simp [dget_cons, h, ih]

/-! ## The keyword-injection loop only writes the five mapped labels -/

theorem mapping_labels (kwl : String × String) (hm : kwl ∈ keyword_field_mapping) :
    kwl.2 = "Total Budget" ∨ kwl.2 = "Adaptation" ∨ kwl.2 = "Mitigation" ∨
    kwl.2 = "Public" ∨ kwl.2 = "Sectors" := by
  fin_cases hm <;> simp

theorem inject_keyword_preserves (m m' : PyDict) (k : String) (v : PyVal)
    (key : String)
    (h1 : key ≠ "Total Budget") (h2 : key ≠ "Adaptation")
    (h3 : key ≠ "Mitigation") (h4 : key ≠ "Public") (h5 : key ≠ "Sectors")
    (h : inject_keyword m k v = Except.ok m') :
    dget m' key = dget m key := by
  simp only [inject_keyword] at h
  split at h
  · simp only [Except.ok.injEq] at h
    subst h
    rfl
  · rename_i kwl hfind
    have hlab := mapping_labels kwl (List.mem_of_find?_eq_some hfind)
    have hne : key ≠ kwl.2 := by
      rcases hlab with e | e | e | e | e <;> rw [e] <;> assumption
    split at h
    · rename_i hs
      have hkey : key ≠ "Sectors" := by
        have hsec : kwl.2 = "Sectors" := by simpa using hs
        exact hsec ▸ hne
      split at h
      · simp only [Except.ok.injEq] at h
        subst h
        rw [dget_dset_ne _ _ _ _ hkey]
        by_cases hin : (dget m "Sectors").isSome
        · simp [hin]
        · simp only [hin, Bool.false_eq_true, if_false]
          exact dget_dset_ne _ _ _ _ hkey
      · exact absurd h (by simp)
    · split at h
      · simp only [Except.ok.injEq] at h
        subst h
        exact dget_dset_ne _ _ _ _ hne
      · simp only [Except.ok.injEq] at h
        subst h
        exact dget_dset_ne _ _ _ _ hne
      · simp only [Except.ok.injEq] at h
        subst h
        rfl

theorem inject_loop_preserves (kws : PyDict) (m0 m1 : PyDict) (key : String)
    (h1 : key ≠ "Total Budget") (h2 : key ≠ "Adaptation")
    (h3 : key ≠ "Mitigation") (h4 : key ≠ "Public") (h5 : key ≠ "Sectors")
    (h : kws.foldlM (fun m kv => inject_keyword m kv.1 kv.2) m0 = Except.ok m1) :
    dget m1 key = dget m0 key := by
  induction kws generalizing m0 with
  | nil =>
    cases h
    rfl
  | cons kv tl ih =>
    rw [List.foldlM_cons] at h
    cases hstep : inject_keyword m0 kv.1 kv.2 with
    | error e => rw [hstep] at h; cases h
    | ok mi =>
      rw [hstep] at h
      have h' : tl.foldlM (fun m kv => inject_keyword m kv.1 kv.2) mi = Except.ok m1 := h
      rw [ih mi h']
      exact inject_keyword_preserves m0 mi kv.1 kv.2 key h1 h2 h3 h4 h5 hstep

/-! ## Claim C10 (`raw_reply` is coerced to null) -/

/-- C10: for any AI result whose `raw_reply` value is a string with no
parseable numeric content, the merge maps `raw_reply` to `None` in the
merged record: the base copy runs every AI value through
`_clean_recursive`, which sends such a string to `None`, and the keyword
loop only ever writes the five mapped labels, never `raw_reply`. -/
theorem c10_raw_reply_becomes_null (ai kw m : PyDict) (s : String)
    (hnd : (ai.map Prod.fst).Nodup)
    (hrr : dget ai "raw_reply" = some (PyVal.str s))
    (hp : pyFloat? (stripNonNumeric s.data) = Option.none)
    (hok : merge_budget_info ai kw = Except.ok m) :
    dget m "raw_reply" = some PyVal.none := by
  unfold merge_budget_info at hok
  rw [foldl_dset_clean_append ai [] hnd (by intro kv _ kv' hkv'; cases hkv'),
      List.nil_append] at hok
  have hbase : dget (ai.map (fun kv => (kv.1, _clean_recursive kv.2))) "raw_reply" =
      some PyVal.none := by
    rw [dget_map_clean, hrr]
    show some (clean_numeric_value (PyVal.str s)) = some PyVal.none
    simp [clean_numeric_value, hp]
  rw [inject_loop_preserves kw _ m "raw_reply" (by decide) (by decide) (by decide)
      (by decide) (by decide) hok, hbase]

/-- C10 witness: a one-key AI dict `{"raw_reply": "no data"}` merged with no
keyword hits yields `{"raw_reply": None}`. -/
theorem c10_witness :
    dget [("raw_reply", PyVal.none)] "raw_reply" = some PyVal.none :=
  c10_raw_reply_becomes_null [("raw_reply", PyVal.str "no data")] []
    [("raw_reply", PyVal.none)] "no data" (by simp) (by rfl) (by rfl) (by rfl)

/-! ## Claim C8 (total AI failure falls back to keyword-only record) -/

theorem inject_keyword_isOk (m : PyDict) (k : String) (v : PyVal)
    (hinv : SectorsDictInv m) :
    ∃ m', inject_keyword m k v = Except.ok m' ∧ SectorsDictInv m' := by
  simp only [inject_keyword]
  split
  · exact ⟨m, rfl, hinv⟩
  · rename_i kwl hfind
    split
    · rename_i hs
      by_cases hin : (dget m "Sectors").isSome
      · obtain ⟨w, hw⟩ := Option.isSome_iff_exists.mp hin
        obtain ⟨kvs, hkvs⟩ := hinv w hw
        subst hkvs
        refine ⟨dset m "Sectors"
          (PyVal.dict (dset kvs (pyCapitalize kwl.1) (_clean_recursive v))), ?_, ?_⟩
        · simp [hin, hw]
        · intro v' hv'
          rw [dget_dset_self] at hv'
          exact ⟨_, (Option.some.injEq _ _ ▸ hv').symm⟩
      · have hget : dget (dset m "Sectors" (PyVal.dict [])) "Sectors" =
            some (PyVal.dict []) := dget_dset_self _ _ _
        refine ⟨dset (dset m "Sectors" (PyVal.dict [])) "Sectors"
          (PyVal.dict (dset [] (pyCapitalize kwl.1) (_clean_recursive v))), ?_, ?_⟩
        · simp only [hin, Bool.false_eq_true, if_false, hget]
        · intro v' hv'
          rw [dget_dset_self] at hv'
          exact ⟨_, (Option.some.injEq _ _ ▸ hv').symm⟩
    · rename_i hs
      have hne : "Sectors" ≠ kwl.2 := by
        intro e
        rw [← e] at hs
        simp at hs
      split
      · refine ⟨dset m kwl.2 (_clean_recursive v), rfl, ?_⟩
        intro v' hv'
        rw [dget_dset_ne _ _ _ _ hne] at hv'
        exact hinv v' hv'
      · refine ⟨dset m kwl.2 (_clean_recursive v), rfl, ?_⟩
        intro v' hv'
        rw [dget_dset_ne _ _ _ _ hne] at hv'
        exact hinv v' hv'
      · exact ⟨m, rfl, hinv⟩

theorem inject_loop_isOk (kws : PyDict) (m0 : PyDict) (hinv : SectorsDictInv m0) :
    ∃ m1, kws.foldlM (fun m kv => inject_keyword m kv.1 kv.2) m0 = Except.ok m1 := by
  induction kws generalizing m0 with
  | nil => exact ⟨m0, rfl⟩
  | cons kv tl ih =>
    obtain ⟨mi, hstep, hinvi⟩ := inject_keyword_isOk m0 kv.1 kv.2 hinv
    obtain ⟨m1, hrest⟩ := ih mi hinvi
    refine ⟨m1, ?_⟩
    rw [List.foldlM_cons, hstep]
    exact hrest

theorem merge_from_empty_isOk (kw : PyDict) :
    ∃ m, merge_budget_info [] kw = Except.ok m := by
  have hinv : SectorsDictInv [] := by
    intro v hv
    cases hv
  exact inject_loop_isOk kw [] hinv

/-- C8: when every primary-provider attempt raises a non-auth exception
(transport failure) and the DeepSeek fallback raises a transport error,
`ai_extract_budget_info` returns the empty dict `{}` (no exception
propagates, by the embedding's totality), and the combined extraction still
succeeds, producing exactly the merge of an empty AI result with the
keyword-extractor output. -/
theorem c8_total_failure_keyword_only_record
    (p : ℕ → ℕ → PrimaryOutcome) (st : AiState) (text : String)
    (hp : ∀ i k, p i k = PrimaryOutcome.otherError) :
    ai_extract_budget_info p SecondaryOutcome.transportErr true st = [] ∧
    extract_combined_budget_info
        (ai_extract_budget_info p SecondaryOutcome.transportErr true st) text =
      merge_budget_info [] (extract_numbers_from_text text budget_keywords) ∧
    (merge_budget_info []
        (extract_numbers_from_text text budget_keywords)).isOk = true := by
  have hai : ai_extract_budget_info p SecondaryOutcome.transportErr true st = [] := by
    simp [ai_extract_budget_info, API_KEYS_length, aiPrimaryLoop, get_client, hp]
  refine ⟨hai, ?_, ?_⟩
  · rw [hai]
    rfl
  · obtain ⟨m, hm⟩ := merge_from_empty_isOk (extract_numbers_from_text text budget_keywords)
    rw [hm]
    rfl

/-- C8 witness: a concrete always-failing oracle pair on a concrete text. -/
theorem c8_witness :
    ai_extract_budget_info (fun _ _ => PrimaryOutcome.otherError)
        SecondaryOutcome.transportErr true ⟨0, 0⟩ = [] ∧
    extract_combined_budget_info
        (ai_extract_budget_info (fun _ _ => PrimaryOutcome.otherError)
          SecondaryOutcome.transportErr true ⟨0, 0⟩) "adaptation 55" =
      merge_budget_info [] (extract_numbers_from_text "adaptation 55" budget_keywords) ∧
    (merge_budget_info []
        (extract_numbers_from_text "adaptation 55" budget_keywords)).isOk = true :=
  c8_total_failure_keyword_only_record (fun _ _ => PrimaryOutcome.otherError)
    ⟨0, 0⟩ "adaptation 55" (fun _ _ => rfl)

/-! ## Claims C5 (amended) and C6 (unallocated residual) -/

theorem Except.ok_bind {ε α β : Type} (a : α) (f : α → Except ε β) :
    (Except.ok a >>= f : Except ε β) = f a := rfl

theorem mapM_toDict_ok (ps : List PyVal)
    (h : ps.all (fun p => match p with
      | PyVal.dict kvs => (dget kvs "Programme").isSome
      | _ => false) = true) :
    ∃ items, (ps.mapM (fun p => match p with
        | PyVal.dict kvs => Except.ok kvs
        | _ => Except.error "TypeError: item is not subscriptable") :
        Except String (List (List (String × PyVal)))) = Except.ok items ∧
      ∀ kvs ∈ items, (dget kvs "Programme").isSome = true := by
  induction ps with
  | nil => exact ⟨[], rfl, by intro kvs hkvs; cases hkvs⟩
  | cons p tl ih =>
    rw [List.all_cons, Bool.and_eq_true] at h
    obtain ⟨items, hitems, hmem⟩ := ih h.2
    match p with
    | PyVal.dict kvs =>
      refine ⟨kvs :: items, ?_, ?_⟩
      · rw [List.mapM_cons, hitems]
        rfl
      · intro kvs' hkvs'
        rcases List.mem_cons.mp hkvs' with e | hm
        · subst e; exact h.1
        · exact hmem kvs' hm

theorem mapM_projEntry_ok (items : List (List (String × PyVal)))
    (h : ∀ kvs ∈ items, (dget kvs "Programme").isSome = true) :
    ∃ g, (items.mapM projEntry : Except String (List (PyVal × ℚ))) =
      Except.ok g := by
  induction items with
  | nil => exact ⟨[], rfl⟩
  | cons kvs tl ih =>
    obtain ⟨g, hg⟩ := ih (fun kvs' h' => h kvs' (List.mem_cons_of_mem _ h'))
    obtain ⟨v, hv⟩ := Option.isSome_iff_exists.mp (h kvs (List.mem_cons_self _ _))
    refine ⟨(v, pyNumSum kvs) :: g, ?_⟩
    rw [List.mapM_cons]
    have hpe : projEntry kvs = Except.ok (v, pyNumSum kvs) := by
      simp [projEntry, getProgramme, hv]
    rw [hpe, Except.ok_bind, hg]
    rfl

theorem sector_fold_ok (kvs : List (String × PyVal))
    (h : kvs.all (fun kv => if pyTruthy kv.2 then
        (match kv.2 with | PyVal.num _ => true | _ => false) else true) = true) :
    ∀ acc : ℚ, ∃ s, (kvs.foldlM sectorAddStep acc : Except String ℚ) =
      Except.ok s := by
  induction kvs with
  | nil => exact fun acc => ⟨acc, rfl⟩
  | cons kv tl ih =>
    intro acc
    rw [List.all_cons, Bool.and_eq_true] at h
    by_cases ht : pyTruthy kv.2
    · have h1 := h.1
      rw [if_pos ht] at h1
      match kv, h1 with
      | (k, PyVal.num q), _ =>
        obtain ⟨s, hs⟩ := ih h.2 (qadd acc q)
        refine ⟨s, ?_⟩
        rw [List.foldlM_cons]
        have hstep : sectorAddStep acc (k, PyVal.num q) = Except.ok (qadd acc q) := by
          simp [sectorAddStep, ht]
        rw [hstep, Except.ok_bind]
        exact hs
    · have ht' : pyTruthy kv.2 = false := by simpa using ht
      obtain ⟨s, hs⟩ := ih h.2 acc
      refine ⟨s, ?_⟩
      rw [List.foldlM_cons]
      have hstep : sectorAddStep acc kv = Except.ok acc := by
        simp [sectorAddStep, ht']
      rw [hstep, Except.ok_bind]
      exact hs

theorem projectItems_ok (data : PyDict) (h2 : cpWellShaped data = true) :
    ∃ items, projectItems ((dget data "Climate Projects").getD (PyVal.list [])) =
        Except.ok items ∧
      ∀ kvs ∈ items, (dget kvs "Programme").isSome = true := by
  unfold cpWellShaped at h2
  cases hcp : dget data "Climate Projects" with
  | none =>
    exact ⟨[], rfl, by intro kvs hkvs; cases hkvs⟩
  | some v =>
    rw [hcp] at h2
    match v, h2 with
    | PyVal.list ps, h2 =>
      simp only [Option.getD_some, projectItems]
      exact mapM_toDict_ok ps h2

/-- C5 (amended): `prepare_graph_data` terminates without raising whenever
the present top-level values are well-shaped — `Total Budget` absent or a
number, `Climate Projects` absent or a list of dicts each binding
`Programme`, `Sectors` absent, falsy or a dict with numeric truthy values.
Absent keys do default to zero/empty collections, but a *null*
`Total Budget` or `Climate Projects`, or a line item without `Programme`
(cases the original claim includes), raises, as `c5_prepare_graph_raises`
shows. -/
theorem c5_amended_no_raise_when_well_shaped (data : PyDict)
    (h1 : tbWellShaped data = true) (h2 : cpWellShaped data = true)
    (h3 : sectorsWellShaped data = true) :
    (prepare_graph_data data).isOk = true := by
  obtain ⟨items, hitems, hmem⟩ := projectItems_ok data h2
  obtain ⟨g, hg⟩ := mapM_projEntry_ok items hmem
  simp only [prepare_graph_data]
  rw [hitems, Except.ok_bind, hg, Except.ok_bind]
  -- the `Sectors` step
  have hsec : ∃ skvs,
      sectorEntries ((dget data "Sectors").getD PyVal.none) = Except.ok skvs ∧
      skvs.all (fun kv => if pyTruthy kv.2 then
        (match kv.2 with | PyVal.num _ => true | _ => false) else true) = true := by
    unfold sectorsWellShaped at h3
    cases hdg : dget data "Sectors" with
    | none => exact ⟨[], rfl, rfl⟩
    | some v =>
      simp only [hdg] at h3
      simp only [hdg, Option.getD_some, sectorEntries]
      by_cases ht : pyTruthy v
      · rw [if_pos ht] at h3 ⊢
        match v, h3 with
        | PyVal.dict kvs, h3 => exact ⟨kvs, rfl, h3⟩
      · rw [if_neg ht] at h3 ⊢
        exact ⟨[], rfl, rfl⟩
  obtain ⟨skvs, hskvs, hall⟩ := hsec
  rw [hskvs, Except.ok_bind]
  obtain ⟨s, hs⟩ := sector_fold_ok skvs hall 0
  rw [hs, Except.ok_bind]
  -- the `Total Budget` step
  unfold tbWellShaped at h1
  cases htb : dget data "Total Budget" with
  | none => rfl
  | some v =>
    simp only [htb] at h1
    match v, h1 with
    | PyVal.num q, _ => rfl

/-- C5 witness: a fully well-shaped record (numeric total, one project with
a `Programme` key, null `Sectors`) projects without error. -/
theorem c5_amended_witness :
    (prepare_graph_data
      [("Total Budget", PyVal.num 100),
       ("Climate Projects", PyVal.list
         [PyVal.dict [("Programme", PyVal.str "X"), ("2024", PyVal.num 5)]]),
       ("Sectors", PyVal.none)]).isOk = true :=
  c5_amended_no_raise_when_well_shaped _ (by rfl) (by rfl) (by rfl)

/-- C6: whenever `prepare_graph_data` succeeds, the `"Unallocated"` total of
its `categories` view equals
`max(TotalBudget - (sectors_sum + projects_sum), 0)` — with `TotalBudget`
the (numeric) stored value, defaulting to `0` when absent — and is never
negative. -/
theorem c6_unallocated_is_clamped_residual (data : PyDict) (g : GraphsOut)
    (h : prepare_graph_data data = Except.ok g) :
    0 ≤ g.unallocated ∧
    ∃ tb : ℚ, (dget data "Total Budget").getD (PyVal.num 0) = PyVal.num tb ∧
      g.unallocated = max (tb - (g.sectorTotal + g.projectsTotal)) 0 := by
  simp only [prepare_graph_data] at h
  cases hpi : projectItems ((dget data "Climate Projects").getD (PyVal.list [])) with
  | error e => rw [hpi] at h; cases h
  | ok projects =>
  rw [hpi, Except.ok_bind] at h
  cases hpg : projects.mapM projEntry with
  | error e => rw [hpg] at h; cases h
  | ok pg =>
  rw [hpg, Except.ok_bind] at h
  cases hse : sectorEntries ((dget data "Sectors").getD PyVal.none) with
  | error e => rw [hse] at h; cases h
  | ok skvs =>
  rw [hse, Except.ok_bind] at h
  cases hst : skvs.foldlM sectorAddStep 0 with
  | error e => rw [hst] at h; cases h
  | ok s =>
  rw [hst, Except.ok_bind] at h
  cases htb : asNumber ((dget data "Total Budget").getD (PyVal.num 0)) with
  | error e => rw [htb] at h; cases h
  | ok tb =>
  rw [htb, Except.ok_bind] at h
  have hge := Except.ok.inj h
  subst hge
  refine ⟨le_max_right _ _, tb, ?_, ?_⟩
  · unfold asNumber at htb
    cases hv : (dget data "Total Budget").getD (PyVal.num 0) with
    | num q =>
      rw [hv] at htb
      rw [Except.ok.inj htb]
    | none => rw [hv] at htb; cases htb
    | str s' => rw [hv] at htb; cases htb
    | list xs => rw [hv] at htb; cases htb
    | dict kvs => rw [hv] at htb; cases htb
  · show max (qsub tb (qadd s (qsum (projects.map pyNumSum)))) 0 = _
    rw [qsub_eq, qadd_eq]

/-- C6 witness: on a record whose sector sum (20) exceeds the total budget
(10), the projector succeeds with `Unallocated = max(10 - (20 + 0), 0) = 0`,
which is non-negative. -/
theorem c6_witness :
    0 ≤ (GraphsOut.mk [] 20 0 0 [(2022, 0), (2023, 0), (2024, 0)]).unallocated ∧
    ∃ tb : ℚ,
      (dget [("Total Budget", PyVal.num 10),
             ("Sectors", PyVal.dict [("Energy", PyVal.num 20)])]
          "Total Budget").getD (PyVal.num 0) = PyVal.num tb ∧
      (GraphsOut.mk [] 20 0 0 [(2022, 0), (2023, 0), (2024, 0)]).unallocated =
        max (tb - ((GraphsOut.mk [] 20 0 0 [(2022, 0), (2023, 0), (2024, 0)]).sectorTotal +
          (GraphsOut.mk [] 20 0 0 [(2022, 0), (2023, 0), (2024, 0)]).projectsTotal)) 0 :=
  c6_unallocated_is_clamped_residual
    [("Total Budget", PyVal.num 10), ("Sectors", PyVal.dict [("Energy", PyVal.num 20)])]
    (GraphsOut.mk [] 20 0 0 [(2022, 0), (2023, 0), (2024, 0)]) (by rfl)

/-! ## Claim C4: generic scanning lemmas -/

theorem takeWhile_drop_of_le (P : Char → Bool) :
    ∀ (p : ℕ) (l : List Char), p ≤ (l.takeWhile P).length →
    (l.drop p).takeWhile P = (l.takeWhile P).drop p := by
  intro p
  induction p with
  | zero => intro l _; simp
  | succ p ih =>
    intro l h
    match l with
    | [] => simp at h
    | c :: tl =>
      by_cases hc : P c
      · rw [List.takeWhile_cons_of_pos hc] at h ⊢
        simp only [List.length_cons, Nat.succ_le_succ_iff] at h
        simpa using ih tl h
      · rw [List.takeWhile_cons_of_neg hc] at h
        simp at h

theorem dropWhile_drop_of_le (P : Char → Bool) :
    ∀ (p : ℕ) (l : List Char), p ≤ (l.takeWhile P).length →
    (l.drop p).dropWhile P = l.dropWhile P := by
  intro p
  induction p with
  | zero => intro l _; simp
  | succ p ih =>
    intro l h
    match l with
    | [] => simp at h
    | c :: tl =>
      by_cases hc : P c
      · rw [List.takeWhile_cons_of_pos hc] at h
        simp only [List.length_cons, Nat.succ_le_succ_iff] at h
        rw [List.dropWhile_cons_of_pos hc]
        simpa using ih tl h
      · rw [List.takeWhile_cons_of_neg hc] at h
        simp at h

theorem drop_cons_mem_take :
    ∀ (k n : ℕ) (l : List Char) (e : Char) (rest : List Char), k < n →
    l.drop k = e :: rest → e ∈ l.take n := by
  intro k
  induction k with
  | zero =>
    intro n l e rest hn h
    rw [List.drop_zero] at h
    subst h
    match n, hn with
    | n + 1, _ => simp
  | succ k ih =>
    intro n l e rest hn h
    match l with
    | [] => simp at h
    | c :: tl =>
      rw [List.drop_succ_cons] at h
      match n, hn with
      | n + 1, hn =>
        have := ih n tl e rest (Nat.lt_of_succ_lt_succ hn) h
        simpa using List.mem_cons_of_mem c this

theorem takeWhile_ne_nil_cons (P : Char → Bool) (l : List Char)
    (h : l.takeWhile P ≠ []) : ∃ e rest, l = e :: rest ∧ P e = true := by
  match l with
  | [] => simp at h
  | c :: tl =>
    by_cases hc : P c
    · exact ⟨c, tl, rfl, hc⟩
    · rw [List.takeWhile_cons_of_neg hc] at h
      simp at h

theorem lastIdxWhere_eq_none (P : Char → Bool) :
    ∀ (l : List Char), lastIdxWhere P l = Option.none → ∀ z ∈ l, P z = false := by
  intro l
  induction l with
  | nil => intro _ z hz; cases hz
  | cons d tl ih =>
    intro h z hz
    unfold lastIdxWhere at h
    cases hlt : lastIdxWhere P tl with
    | some j => rw [hlt] at h; cases h
    | none =>
      rw [hlt] at h
      by_cases hd : P d
      · rw [if_pos hd] at h; cases h
      · rw [if_neg hd] at h
        rcases List.mem_cons.mp hz with e | hz2
        · subst e; simpa using hd
        · exact ih hlt z hz2

theorem lastIdxWhere_spec (P : Char → Bool) :
    ∀ (l : List Char) (i : ℕ), lastIdxWhere P l = some i →
    ∃ e, l.drop i = e :: l.drop (i + 1) ∧ P e = true ∧
      ∀ x ∈ l.drop (i + 1), P x = false := by
  intro l
  induction l with
  | nil => intro i h; cases h
  | cons c tl ih =>
    intro i h
    unfold lastIdxWhere at h
    cases hlt : lastIdxWhere P tl with
    | some j =>
      rw [hlt] at h
      cases h
      obtain ⟨e, hcons, hPe, hafter⟩ := ih j hlt
      refine ⟨e, by simpa using hcons, hPe, ?_⟩
      intro x hx
      exact hafter x (by simpa using hx)
    | none =>
      rw [hlt] at h
      by_cases hc : P c
      · rw [if_pos hc] at h
        cases h
        refine ⟨c, by simp, hc, ?_⟩
        intro x hx
        simp only [List.drop_succ_cons, List.drop_zero] at hx
        exact lastIdxWhere_eq_none P tl hlt x hx
      · rw [if_neg hc] at h
        cases h

theorem lastIdxWhere_drop (P : Char → Bool) :
    ∀ (p : ℕ) (l : List Char) (i : ℕ), lastIdxWhere P l = some i → p ≤ i →
    lastIdxWhere P (l.drop p) = some (i - p) := by
  intro p
  induction p with
  | zero => intro l i h _; simpa using h
  | succ p ih =>
    intro l i h hp
    match l with
    | [] => cases h
    | c :: tl =>
      unfold lastIdxWhere at h
      cases hlt : lastIdxWhere P tl with
      | some j =>
        rw [hlt] at h
        cases h
        have : lastIdxWhere P (tl.drop p) = some (j - p) :=
          ih tl j hlt (Nat.le_of_succ_le_succ hp)
        simpa [Nat.succ_sub_succ] using this
      | none =>
        rw [hlt] at h
        by_cases hc : P c
        · rw [if_pos hc] at h
          cases h
          cases hp
        · rw [if_neg hc] at h
          cases h

/-! ## Claim C4: character-class lemmas -/

theorem asciiLower_digitComma_fixed (x : Char) (hx : digitComma x = true) :
    asciiLowerChar x = x := by
  unfold asciiLowerChar
  rw [if_neg]
  intro hAZ
  rw [Bool.and_eq_true, decide_eq_true_eq, decide_eq_true_eq] at hAZ
  unfold digitComma isDigitCh at hx
  rw [Bool.or_eq_true, Bool.and_eq_true] at hx
  rcases hx with ⟨h0, h9⟩ | hc
  · rw [decide_eq_true_eq] at h9
    exact absurd (le_trans hAZ.1 h9) (by decide)
  · rw [beq_iff_eq] at hc
    subst hc
    exact absurd hAZ.1 (by decide)

theorem mem_total_window_not_cls (u : List Char) (hu : asciiLowerL u = TOTAL_LIT)
    (x : Char) (hx : x ∈ u) : digitComma x = false := by
  by_contra hx'
  rw [Bool.not_eq_false] at hx'
  have hmem : asciiLowerChar x ∈ TOTAL_LIT := by
    rw [← hu]
    exact List.mem_map_of_mem _ hx
  rw [asciiLower_digitComma_fixed x hx'] at hmem
  fin_cases hmem <;> simp_all [digitComma, isDigitCh]

/-! ## Claim C4: structure of a `Total` match -/

theorem drop_length_takeWhile (P : Char → Bool) (l : List Char) :
    l.drop (l.takeWhile P).length = l.dropWhile P := by
  nth_rewrite 2 [← List.takeWhile_append_dropWhile (p := P) (l := l)]
  exact List.drop_left _ _

theorem dropWhile_eq_cons_head_false (P : Char → Bool) :
    ∀ (l : List Char) (d : Char) (r2 : List Char),
    l.dropWhile P = d :: r2 → P d = false := by
  intro l
  induction l with
  | nil => intro d r2 h; cases h
  | cons c tl ih =>
    intro d r2 h
    by_cases hc : P c
    · rw [List.dropWhile_cons_of_pos hc] at h
      exact ih d r2 h
    · rw [List.dropWhile_cons_of_neg hc] at h
      cases h
      simpa using hc

theorem takeWhile_length_le (P : Char → Bool) (l : List Char) :
    (l.takeWhile P).length ≤ l.length := by
  have h := congrArg List.length (List.takeWhile_append_dropWhile (p := P) (l := l))
  rw [List.length_append] at h
  omega

theorem matchNumTail_elim (cls : Char → Bool) (t : List Char) (g : List Char)
    (n : ℕ) (h : matchNumTail cls t = some (g, n)) :
    (∃ d r2, t.dropWhile ndg = d :: r2 ∧ g = (d :: r2).takeWhile cls ∧
      n = (t.takeWhile ndg).length + g.length) ∨
    (t.dropWhile ndg = [] ∧ ∃ i, lastIdxWhere cls (t.takeWhile ndg) = some i ∧
      g = ((t.takeWhile ndg).drop i).takeWhile cls ∧ n = i + g.length) := by
  unfold matchNumTail at h
  cases hr : t.dropWhile ndg with
  | nil =>
    rw [hr] at h
    cases hli : lastIdxWhere cls (t.takeWhile ndg) with
    | some i =>
      rw [hli] at h
      cases h
      exact Or.inr ⟨rfl, i, rfl, rfl, rfl⟩
    | none =>
      rw [hli] at h
      cases h
  | cons d r2 =>
    rw [hr] at h
    cases h
    exact Or.inl ⟨d, r2, rfl, rfl, rfl⟩

theorem totalMatchAt_elim (s : List Char) (g : List Char) (c : ℕ)
    (h : totalMatchAt s = some (g, c)) :
    asciiLowerL (s.take 5) = TOTAL_LIT ∧
    ∃ n, matchNumTail digitComma (s.drop 5) = some (g, n) ∧ c = 5 + n := by
  unfold totalMatchAt at h
  by_cases hlow : asciiLowerL (s.take 5) = TOTAL_LIT
  · rw [if_pos hlow] at h
    cases hmt : matchNumTail digitComma (s.drop 5) with
    | none => rw [hmt] at h; cases h
    | some gn =>
      obtain ⟨g1, n1⟩ := gn
      rw [hmt] at h
      cases h
      refine ⟨hlow, n1, ?_, rfl⟩
      simpa using hmt
  · rw [if_neg hlow] at h
    cases h

theorem total_take5_length (s : List Char)
    (hlow : asciiLowerL (s.take 5) = TOTAL_LIT) : 5 ≤ s.length := by
  have h5 := congrArg List.length hlow
  simp only [asciiLowerL, List.length_map, List.length_take] at h5
  rw [show TOTAL_LIT.length = 5 from rfl] at h5
  omega

theorem totalMatchAt_cns_bounds (s : List Char) (g : List Char) (c : ℕ)
    (h : totalMatchAt s = some (g, c)) : 1 ≤ c ∧ c ≤ s.length := by
  obtain ⟨hlow, n, hmt, hc⟩ := totalMatchAt_elim s g c h
  have h5 : 5 ≤ s.length := total_take5_length s hlow
  have htlen : (s.drop 5).length = s.length - 5 := List.length_drop 5 s
  have hsplit := congrArg List.length
    (List.takeWhile_append_dropWhile (p := ndg) (l := s.drop 5))
  rw [List.length_append] at hsplit
  rcases matchNumTail_elim _ _ _ _ hmt with
    ⟨d, r2, hrr, hgeq, hneq⟩ | ⟨hnil, i, hli, hgeq, hneq⟩
  · have hglen : g.length ≤ (d :: r2).length := by
      rw [hgeq]
      exact takeWhile_length_le _ _
    rw [hrr] at hsplit
    omega
  · obtain ⟨e, hcons, hPe, hafter⟩ := lastIdxWhere_spec _ _ _ hli
    have hlcons := congrArg List.length hcons
    simp only [List.length_drop, List.length_cons] at hlcons
    have hglen : g.length ≤ ((s.drop 5).takeWhile ndg).length - i := by
      rw [hgeq]
      have := takeWhile_length_le digitComma (((s.drop 5).takeWhile ndg).drop i)
      rw [List.length_drop] at this
      exact this
    have htwle := takeWhile_length_le ndg (s.drop 5)
    rw [hnil] at hsplit
    omega

theorem window_clash (s : List Char) (p k : ℕ) (hk : k < 5)
    (hwin : asciiLowerL ((s.drop p).take 5) = TOTAL_LIT)
    (e : Char) (rest : List Char) (he : s.drop (p + k) = e :: rest)
    (hcls : digitComma e = true) : False := by
  have hdk : (s.drop p).drop k = e :: rest := by
    rw [List.drop_drop]
    exact he
  have hmem := drop_cons_mem_take k 5 (s.drop p) e rest hk hdk
  have := mem_total_window_not_cls _ hwin e hmem
  rw [hcls] at this
  cases this

theorem totalMatchAt_swallow (s : List Char) (g : List Char) (c : ℕ)
    (h : totalMatchAt s = some (g, c)) (p : ℕ) (hp0 : 0 < p) (hpc : p < c)
    (g' : List Char) (c' : ℕ) (h' : totalMatchAt (s.drop p) = some (g', c')) :
    g' = g := by
  obtain ⟨hlow, n, hmt, hc⟩ := totalMatchAt_elim s g c h
  obtain ⟨hlow', n', hmt', hc'⟩ := totalMatchAt_elim _ g' c' h'
  have hdd : (s.drop p).drop 5 = (s.drop 5).drop p := by
    rw [List.drop_drop, List.drop_drop, Nat.add_comm]
  rw [hdd] at hmt'
  rcases matchNumTail_elim _ _ _ _ hmt with
    ⟨d, r2, hrr, hgeq, hneq⟩ | ⟨hnil, i, hli, hgeq, hneq⟩
  · -- a digit follows the literal: the group is the run at the first digit
    have hdrop5a : s.drop (5 + ((s.drop 5).takeWhile ndg).length) = d :: r2 := by
      rw [← List.drop_drop, drop_length_takeWhile, hrr]
    have hd : isDigitCh d = true := by
      have hnd := dropWhile_eq_cons_head_false ndg (s.drop 5) d r2 hrr
      unfold ndg at hnd
      simpa using hnd
    have hpa : p ≤ ((s.drop 5).takeWhile ndg).length := by
      by_contra hpa'
      push_neg at hpa'
      by_cases hsmall : p < 5 + ((s.drop 5).takeWhile ndg).length
      · refine window_clash s p (5 + ((s.drop 5).takeWhile ndg).length - p)
          (by omega) hlow' d r2 ?_ (by simp [digitComma, hd])
        rw [show p + (5 + ((s.drop 5).takeWhile ndg).length - p) =
          5 + ((s.drop 5).takeWhile ndg).length by omega]
        exact hdrop5a
      · -- p lands inside the captured group
        have hj : p - (5 + ((s.drop 5).takeWhile ndg).length) < g.length := by
          omega
        have hdropp : s.drop p =
            (d :: r2).drop (p - (5 + ((s.drop 5).takeWhile ndg).length)) := by
          have h1 : (d :: r2).drop (p - (5 + ((s.drop 5).takeWhile ndg).length)) =
              s.drop ((5 + ((s.drop 5).takeWhile ndg).length) +
                (p - (5 + ((s.drop 5).takeWhile ndg).length))) := by
            rw [← hdrop5a, List.drop_drop]
          rw [h1, Nat.add_sub_cancel' (by omega)]
        have hjle : p - (5 + ((s.drop 5).takeWhile ndg).length) ≤
            ((d :: r2).takeWhile digitComma).length := by
          rw [← hgeq]; omega
        have htw : ((d :: r2).drop
            (p - (5 + ((s.drop 5).takeWhile ndg).length))).takeWhile digitComma =
            ((d :: r2).takeWhile digitComma).drop
              (p - (5 + ((s.drop 5).takeWhile ndg).length)) :=
          takeWhile_drop_of_le digitComma _ _ hjle
        have hgj : ((d :: r2).takeWhile digitComma).drop
            (p - (5 + ((s.drop 5).takeWhile ndg).length)) ≠ [] := by
          intro hnilg
          have := congrArg List.length hnilg
          rw [List.length_drop, ← hgeq] at this
          simp only [List.length_nil] at this
          omega
        have htwne : ((d :: r2).drop
            (p - (5 + ((s.drop 5).takeWhile ndg).length))).takeWhile digitComma ≠ [] := by
          rw [htw]; exact hgj
        obtain ⟨e, rest, hcons, hPe⟩ := takeWhile_ne_nil_cons _ _ htwne
        refine window_clash s p 0 (by omega) hlow' e rest ?_ hPe
        rw [Nat.add_zero, hdropp, hcons]
    -- the inner match sees the same non-digit run remainder
    have hA := dropWhile_drop_of_le ndg p (s.drop 5) hpa
    rcases matchNumTail_elim _ _ _ _ hmt' with
      ⟨d2, r22, hrr', hgeq', _⟩ | ⟨hnil', _⟩
    · rw [hA, hrr] at hrr'
      rw [hgeq', ← hrr', hgeq]
    · rw [hA, hrr] at hnil'
      cases hnil'
  · -- no digit after the literal: the group starts at the last class char
    have hat : (s.drop 5).takeWhile ndg = s.drop 5 := by
      have := List.takeWhile_append_dropWhile (p := ndg) (l := s.drop 5)
      rw [hnil, List.append_nil] at this
      exact this
    rw [hat] at hli hgeq
    obtain ⟨e, hcons, hPe, hafter⟩ := lastIdxWhere_spec _ _ _ hli
    have hglen : g.length = 1 := by
      rw [hgeq, hcons]
      rw [List.takeWhile_cons_of_pos hPe]
      cases hrest : (s.drop 5).drop (i + 1) with
      | nil => simp
      | cons f r3 =>
        have hf : digitComma f = false := hafter f (by rw [hrest]; simp)
        rw [List.takeWhile_cons_of_neg (by simp [hf])]
        simp
    have hpi : p ≤ i := by
      by_contra hpi'
      push_neg at hpi'
      have hple : p ≤ 5 + i := by omega
      refine window_clash s p (5 + i - p) (by omega) hlow' e ((s.drop 5).drop (i + 1))
        ?_ hPe
      rw [show p + (5 + i - p) = 5 + i by omega, ← List.drop_drop]
      exact hcons
    have hallnd : ∀ x ∈ (s.drop 5).drop p, ndg x = true := by
      intro x hx
      have hxt : x ∈ s.drop 5 := List.drop_subset _ _ hx
      rw [← hat] at hxt
      exact List.mem_takeWhile_imp hxt
    have hnil' : ((s.drop 5).drop p).dropWhile ndg = [] :=
      List.dropWhile_eq_nil_iff.mpr hallnd
    have hat' : ((s.drop 5).drop p).takeWhile ndg = (s.drop 5).drop p :=
      List.takeWhile_eq_self_iff.mpr hallnd
    rcases matchNumTail_elim _ _ _ _ hmt' with
      ⟨d2, r22, hrr', _, _⟩ | ⟨_, i', hli', hgeq', _⟩
    · rw [hnil'] at hrr'
      cases hrr'
    · rw [hat'] at hli' hgeq'
      have hldrop := lastIdxWhere_drop digitComma p (s.drop 5) i hli hpi
      rw [hldrop] at hli'
      cases hli'
      rw [hgeq', List.drop_drop, show p + (i - p) = i from by omega, hgeq]

/-! ## Claim C4: the scan against the all-positions occurrence list -/

theorem totalScan_skip : ∀ (s : List Char) (k : ℕ),
    totalScan s k = totalScan (s.drop k) 0 := by
  intro s
  induction s with
  | nil => intro k; cases k <;> rfl
  | cons c tl ih =>
    intro k
    cases k with
    | zero => rfl
    | succ k =>
      show totalScan tl k = _
      rw [ih k]
      rfl

theorem totalFindAll_cons_some (c : Char) (tl : List Char) (g : List Char)
    (cns : ℕ) (hm : totalMatchAt (c :: tl) = some (g, cns)) :
    totalFindAll (c :: tl) = g :: totalFindAll ((c :: tl).drop cns) := by
  have h1 : 1 ≤ cns := (totalMatchAt_cns_bounds _ _ _ hm).1
  show totalScan (c :: tl) 0 = _
  unfold totalScan
  rw [hm]
  show g :: totalScan tl (cns - 1) = _
  rw [totalScan_skip tl (cns - 1)]
  show g :: totalFindAll (tl.drop (cns - 1)) = _
  have h2 : (c :: tl).drop cns = tl.drop (cns - 1) := by
    cases cns with
    | zero => exact absurd h1 (by omega)
    | succ m => simp
  rw [h2]

theorem totalFindAll_cons_none (c : Char) (tl : List Char)
    (hm : totalMatchAt (c :: tl) = Option.none) :
    totalFindAll (c :: tl) = totalFindAll tl := by
  show totalScan (c :: tl) 0 = _
  unfold totalScan
  rw [hm]
  rfl

theorem occVals_cons (c : Char) (tl : List Char) :
    totalOccurrenceValues (c :: tl) =
      totalOccValueHead (c :: tl) ++ totalOccurrenceValues tl := rfl

theorem occVals_drop_subset : ∀ (k : ℕ) (s : List Char) (v : ℚ),
    v ∈ totalOccurrenceValues (s.drop k) → v ∈ totalOccurrenceValues s := by
  intro k
  induction k with
  | zero => intro s v hv; simpa using hv
  | succ k ih =>
    intro s v hv
    match s with
    | [] => simpa using hv
    | c :: tl =>
      rw [List.drop_succ_cons] at hv
      rw [occVals_cons]
      exact List.mem_append.mpr (Or.inr (ih tl v hv))

theorem totalOccValueHead_eq (s : List Char) (g : List Char) (cns : ℕ)
    (hm : totalMatchAt s = some (g, cns)) :
    totalOccValueHead s = (parseGroup? g).toList := by
  unfold totalOccValueHead
  rw [hm]

theorem totalOccValueHead_none (s : List Char)
    (hm : totalMatchAt s = Option.none) : totalOccValueHead s = [] := by
  unfold totalOccValueHead
  rw [hm]

theorem findall_vals_subset_occ : ∀ (N : ℕ) (s : List Char), s.length ≤ N →
    ∀ v ∈ (totalFindAll s).filterMap parseGroup?, v ∈ totalOccurrenceValues s := by
  intro N
  induction N with
  | zero =>
    intro s hs v hv
    have : s = [] := List.eq_nil_of_length_eq_zero (Nat.le_zero.mp hs)
    subst this
    simp [totalFindAll, totalScan] at hv
  | succ N ih =>
    intro s hs v hv
    match s with
    | [] => simp [totalFindAll, totalScan] at hv
    | c :: tl =>
      have htl : tl.length ≤ N := by
        simp only [List.length_cons] at hs
        omega
      cases hm : totalMatchAt (c :: tl) with
      | none =>
        rw [totalFindAll_cons_none c tl hm] at hv
        rw [occVals_cons]
        exact List.mem_append.mpr (Or.inr (ih tl htl v hv))
      | some gn =>
        obtain ⟨g, cns⟩ := gn
        have hb := totalMatchAt_cns_bounds _ _ _ hm
        rw [totalFindAll_cons_some c tl g cns hm, List.filterMap_cons] at hv
        rw [occVals_cons]
        have hdlen : ((c :: tl).drop cns).length ≤ N := by
          rw [List.length_drop]
          simp only [List.length_cons] at hs ⊢
          omega
        cases hp : parseGroup? g with
        | none =>
          rw [hp] at hv
          refine List.mem_append.mpr (Or.inr ?_)
          have hocc := ih _ hdlen v hv
          have hmem := occVals_drop_subset cns (c :: tl) v hocc
          rw [occVals_cons, totalOccValueHead_eq _ _ _ hm, hp] at hmem
          simpa using hmem
        | some q =>
          rw [hp] at hv
          rcases List.mem_cons.mp hv with e | hv2
          · subst e
            refine List.mem_append.mpr (Or.inl ?_)
            rw [totalOccValueHead_eq _ _ _ hm, hp]
            simp
          · have hocc := ih _ hdlen v hv2
            exact occVals_drop_subset cns (c :: tl) v hocc

theorem occ_seg : ∀ (m : ℕ) (s : List Char) (g : List Char) (cns : ℕ),
    totalMatchAt s = some (g, cns) →
    ∀ j, 0 < j → j ≤ cns → cns - j ≤ m →
    ∀ v ∈ totalOccurrenceValues (s.drop j),
      parseGroup? g = some v ∨ v ∈ totalOccurrenceValues (s.drop cns) := by
  intro m
  induction m with
  | zero =>
    intro s g cns hm j hj0 hjc hm0 v hv
    have : j = cns := by omega
    subst this
    exact Or.inr hv
  | succ m ih =>
    intro s g cns hm j hj0 hjc hmm v hv
    by_cases hje : j = cns
    · subst hje
      exact Or.inr hv
    · have hjlt : j < cns := by omega
      cases hsj : s.drop j with
      | nil =>
        rw [hsj] at hv
        simp [totalOccurrenceValues] at hv
      | cons cj tlj =>
        rw [hsj, occVals_cons] at hv
        rcases List.mem_append.mp hv with hl | hr
        · cases hm' : totalMatchAt (cj :: tlj) with
          | none =>
            rw [totalOccValueHead_none _ hm'] at hl
            cases hl
          | some gn' =>
            obtain ⟨g1, c1⟩ := gn'
            rw [totalOccValueHead_eq _ _ _ hm'] at hl
            have hswallow : g1 = g := by
              refine totalMatchAt_swallow s g cns hm j hj0 hjlt g1 c1 ?_
              rw [hsj]
              exact hm'
            rw [hswallow] at hl
            left
            cases hp : parseGroup? g with
            | none =>
              rw [hp] at hl
              cases hl
            | some q =>
              rw [hp] at hl
              simp only [Option.toList_some, List.mem_singleton] at hl
              rw [hl]
        · have htlj : tlj = s.drop (j + 1) := by
            have hd1 := congrArg (List.drop 1) hsj
            rw [List.drop_drop] at hd1
            simpa using hd1.symm
          rw [htlj] at hr
          exact ih s g cns hm (j + 1) (by omega) (by omega) (by omega) v hr

theorem occ_vals_subset_findall : ∀ (N : ℕ) (s : List Char), s.length ≤ N →
    ∀ v ∈ totalOccurrenceValues s, v ∈ (totalFindAll s).filterMap parseGroup? := by
  intro N
  induction N with
  | zero =>
    intro s hs v hv
    have : s = [] := List.eq_nil_of_length_eq_zero (Nat.le_zero.mp hs)
    subst this
    simp [totalOccurrenceValues] at hv
  | succ N ih =>
    intro s hs v hv
    match s with
    | [] => simp [totalOccurrenceValues] at hv
    | c :: tl =>
      have htl : tl.length ≤ N := by
        simp only [List.length_cons] at hs
        omega
      cases hm : totalMatchAt (c :: tl) with
      | none =>
        rw [occVals_cons, totalOccValueHead_none _ hm, List.nil_append] at hv
        rw [totalFindAll_cons_none c tl hm]
        exact ih tl htl v hv
      | some gn =>
        obtain ⟨g, cns⟩ := gn
        have hb := totalMatchAt_cns_bounds _ _ _ hm
        rw [totalFindAll_cons_some c tl g cns hm, List.filterMap_cons]
        rw [occVals_cons] at hv
        have hdlen : ((c :: tl).drop cns).length ≤ N := by
          rw [List.length_drop]
          simp only [List.length_cons] at hs ⊢
          omega
        rcases List.mem_append.mp hv with hl | hr
        · rw [totalOccValueHead_eq _ _ _ hm] at hl
          cases hp : parseGroup? g with
          | none =>
            rw [hp] at hl
            cases hl
          | some q =>
            rw [hp] at hl
            simp only [Option.toList_some, List.mem_singleton] at hl
            subst hl
            exact List.mem_cons_self _ _
        · have hr1 : v ∈ totalOccurrenceValues ((c :: tl).drop 1) := by
            simpa using hr
          rcases occ_seg cns (c :: tl) g cns hm 1 (by omega) (by omega) (by omega)
              v hr1 with hL | hR
          · rw [hL]
            exact List.mem_cons_self _ _
          · have hfm := ih _ hdlen v hR
            cases hp : parseGroup? g with
            | none => exact hfm
            | some q => exact List.mem_cons_of_mem _ hfm

theorem max?_congr (l l' : List ℚ) (h1 : ∀ v ∈ l, v ∈ l')
    (h2 : ∀ v ∈ l', v ∈ l) : l.max? = l'.max? := by
  haveI hanti : Std.Antisymm ((· : ℚ) ≤ ·) := ⟨fun ha hb => le_antisymm ha hb⟩
  cases hl : l.max? with
  | none =>
    rw [List.max?_eq_none_iff] at hl
    subst hl
    cases hl' : l'.max? with
    | none => rfl
    | some a =>
      have hmem := List.max?_mem max_choice hl'
      have := h2 a hmem
      simp at this
  | some a =>
    rw [List.max?_eq_some_iff le_refl max_choice (fun a b c => max_le_iff)] at hl
    symm
    rw [List.max?_eq_some_iff le_refl max_choice (fun a b c => max_le_iff)]
    exact ⟨h1 a hl.1, fun b hb => hl.2 b (h2 b hb)⟩

/-- C4: for every input string, `extract_total_budget` returns exactly the
maximum over the parsed values of the `Total ... number` occurrence at
*every* position of the text (occurrences swallowed inside an earlier match
capture the same group, so `findall`'s non-overlapping scan loses no
value), not the first one; it returns `None` exactly when no occurrence has
a parseable number.  Concretely, `"Total 100 ... Total 900"` yields
`900.0`, and a text whose `Total` occurrences have no parseable number
yields `None`. -/
theorem c4_total_budget_max_over_occurrences :
    (∀ text : String,
      extract_total_budget text = (totalOccurrenceValues text.data).max?) ∧
    extract_total_budget "Total 100 ... Total 900" = some 900 ∧
    extract_total_budget "Total none and Total ,," = Option.none := by
  refine ⟨fun text => ?_, by rfl, by rfl⟩
  unfold extract_total_budget
  exact max?_congr _ _
    (fun v hv => findall_vals_subset_occ text.data.length text.data le_rfl v hv)
    (fun v hv => occ_vals_subset_findall text.data.length text.data le_rfl v hv)

/-! ## Claim C1 (merge precedence) -/

/-- C1: the claim says a keyword-derived value is only written when the
canonical field is absent or null, with a per-sub-key check for `Sectors`.
Evaluating the merge at an AI result holding the present, non-null value
`Sectors.Energy = 5` and a text whose keyword extraction yields
`energy = 7` shows the sector branch overwriting the AI value
unconditionally: the merged record carries `7`, not `5`. -/
theorem c1_sector_keyword_overwrites_ai :
    extract_combined_budget_info
      [("Sectors", PyVal.dict [("Energy", PyVal.num 5)])] "energy 7" =
    Except.ok [("Sectors", PyVal.dict [("Energy", PyVal.num 7)])] := by rfl

/-! ## Claim C2 (end-to-end scenario) -/

/-- C2 counterexample: on the claimed input the agriculture extractor
returns `(None, None)` — no row at all — because the amounts
`2000,900,800` are one `[\d,]+` token with no whitespace between the three
columns, so the four-group row pattern never matches. -/
theorem c2_counterexample :
    extract_agriculture_budget
      "Energy 17 1000,500,400 Agriculture 18 2000,900,800 Total Budget: 5,000,000" =
    Except.ok Option.none := by rfl

/-- C2 (amended): on the claimed input `extract_total_budget` does return
`5000000.0`, but the agriculture extractor returns `(None, None)`; the
claimed single row (`2024=2000, 2023=900, 2022=800`, totals
`{2022:800, 2023:900, 2024:2000}`) is produced only when the three amounts
are whitespace-separated. -/
theorem c2_amended_scenario :
    extract_total_budget
      "Energy 17 1000,500,400 Agriculture 18 2000,900,800 Total Budget: 5,000,000" =
      some 5000000 ∧
    extract_agriculture_budget
      "Energy 17 1000,500,400 Agriculture 18 2000,900,800 Total Budget: 5,000,000" =
      Except.ok Option.none ∧
    extract_agriculture_budget
      "Energy 17 1000 500 400 Agriculture 18 2000 900 800 Total Budget: 5,000,000" =
      Except.ok (some ([⟨"Agriculture".data, 2000, 900, 800⟩], (800, 900, 2000))) :=
  ⟨by rfl, by rfl, by rfl⟩

/-! ## Claim C3 (extractors never raise) -/

/-- C3: the claim says each pattern extractor terminates without raising on
every input.  `extract_agriculture_budget` violates it: on
`"Agric 5 , , ,"` the row pattern matches with each amount group `","`,
`","` strips to the empty string, and `float("")` raises an uncaught
`ValueError`. -/
theorem c3_agriculture_extractor_raises :
    extract_agriculture_budget "Agric 5 , , ," =
    Except.error "ValueError: could not convert string to float" := by rfl

/-! ## Claim C5 (graph projector never raises) -/

/-- C5 counterexample: a `BudgetRecord` with a null `Total Budget` (a valid
record per the data model, and a case the claim lists) makes
`prepare_graph_data` raise: `data.get("Total Budget", 0)` returns the
stored `None`, and `None - (sector_total + projects_total)` is a
`TypeError`. -/
theorem c5_counterexample :
    prepare_graph_data [("Total Budget", PyVal.none)] =
    Except.error "TypeError: unsupported operand type for -" := by rfl

/-! ## Claim C7 (credential rotation) -/

/-- C7: the claim says an auth/rate-limit failure advances to the next
credential slot so that each slot is attempted once.  In the code the
rotation lives in `get_client`'s `except` handler, which is dead code
(`try: return client` raises neither exception), so every iteration uses
the same slot: the trace of slots used is constantly the cached client's
slot for every oracle, and with two keys both failing with auth errors the
trace is `[0, 0]` — slot `1` is never attempted. -/
theorem c7_rotation_never_happens :
    (∀ (p : ℕ → ℕ → PrimaryOutcome) (st : AiState) (n : ℕ),
      (aiPrimaryLoop p n st).1.all (fun k => k == st.clientIdx) = true) ∧
    (aiPrimaryLoop (fun _ _ => PrimaryOutcome.authOrRate) 2 ⟨0, 0⟩).1 = [0, 0] := by
  refine ⟨fun p st n => ?_, rfl⟩
  induction n with
  | zero => rfl
  | succ n ih =>
    simp only [aiPrimaryLoop, get_client]
    cases hp : p n st.clientIdx with
    | ok parsed =>
      cases parsed with
      | some d =>
        by_cases hd : d.isEmpty
        · simp [hd, ih]
        · simp [hd]
      | none => simp [ih]
    | authOrRate => simp [ih]
    | otherError => simp
